import Mathlib

/-!
Verification of the `redis_luamodules` module system against its specification.

The development shallowly embeds the source:

* `LuaFunction` mirrors the Python class of the same name (`arg_names`,
  `code`, `first_optional_index`, `varargs`) together with its derived
  operations `arg_count_range`, `arg_count_range_text`, `arg_count_valid`,
  `lua_argdef` and `lua_funcdef`.
* A module graph is a finite family of modules indexed by `Fin n`; module
  identity is index identity, mirroring the identity-based semantics of the
  Python objects.  `_all_imports` is the depth-first closure computation,
  `_compile_` the script assembler.
* Mutable per-module state (`imports` list, `compile_called` flag, cached
  registered script) is threaded explicitly through `_import_` and `_call_`,
  with interactions with the external store recorded as an event list.
-/

namespace RedisLuaModules

/-- Embeds the Python class `LuaFunction`: the constructor stores the four
fields verbatim, enforcing no invariant. -/
structure LuaFunction where
  arg_names : List String
  code : String
  first_optional_index : Option Nat := none
  varargs : Bool := false
deriving DecidableEq

/-- `LuaFunction.arg_count_range`: returns `(min_args, max_args)` where
`max_args` can be `none` (unbounded). Mirrors the Python property, including
the `min(first_optional_index, len(arg_names))` clamping. -/
def LuaFunction.arg_count_range (f : LuaFunction) : Nat × Option Nat :=
  let min_args :=
    match f.first_optional_index with
    | none => f.arg_names.length
    | some i => min i f.arg_names.length
  let max_args := if f.varargs then none else some f.arg_names.length
  (min_args, max_args)

/-- `LuaFunction.arg_count_range_text`: text describing the arg count range.
The Python code compares `min_args == max_args` where `max_args` may be
`None`; that comparison is true only when `max_args` is an int equal to
`min_args`. -/
def LuaFunction.arg_count_range_text (f : LuaFunction) : String :=
  let mn := f.arg_count_range.1
  match f.arg_count_range.2 with
  | some mx =>
      if mn = mx then "exactly " ++ toString mn
      else "between " ++ toString mn ++ " and " ++ toString mx
  | none => "at least " ++ toString mn

/-- `LuaFunction.arg_count_valid(n)`. -/
def LuaFunction.arg_count_valid (f : LuaFunction) (n : Nat) : Bool :=
  let mn := f.arg_count_range.1
  if n < mn then false
  else
    match f.arg_count_range.2 with
    | some mx => if n > mx then false else true
    | none => true

/-- `LuaFunction.lua_argdef`: comma-joined parameter list, with `...`
appended in the varargs case. -/
def LuaFunction.lua_argdef (f : LuaFunction) : String :=
  String.intercalate ", " (if f.varargs then f.arg_names ++ ["..."] else f.arg_names)

/-- `LuaFunction.lua_funcdef`: the emitted Lua function literal. -/
def LuaFunction.lua_funcdef (f : LuaFunction) : String :=
  "function(" ++ f.lua_argdef ++ ") " ++ f.code ++ " end"

/-- A finite family of `LuaModule` objects.  Module identity is the index
(Python compares modules by object identity); `name` is `_name_`,
`imports` the per-module `_imports_` list of `(target, alias)` edges,
`functions` the `_functions_` mapping (as an association list), and `redis`
the optional default client (represented by an opaque numeric id). -/
structure LuaGraph (n : Nat) where
  name : Fin n → String
  imports : Fin n → List (Fin n × String)
  functions : Fin n → List (String × LuaFunction)
  redis : Fin n → Option Nat

/-- The loop body of `_all_imports_recurse`: iterate over an import list,
and for each target not yet in the visited set, recurse into it (visiting
inserts the module before its imports are scanned, exactly as
`s.add(self)` precedes the loop in the source).  The returned set carries
the proof that the visited set only grows, which also drives the
termination argument. -/
def closureGo {n : Nat} (g : LuaGraph n) :
    (l : List (Fin n × String)) → (s : Finset (Fin n)) → {t : Finset (Fin n) // s ⊆ t}
  | [], s => ⟨s, Finset.Subset.refl s⟩
  | (t, _) :: rest, s =>
    if hmem : t ∈ s then
      closureGo g rest s
    else
      let r1 := closureGo g (g.imports t) (insert t s)
      let r2 := closureGo g rest r1.1
      ⟨r2.1, fun x hx => r2.2 (r1.2 (Finset.mem_insert_of_mem hx))⟩
termination_by l s => ((Finset.univ \ s).card, l.length)
decreasing_by
  · exact Prod.Lex.right _ (Nat.lt_succ_self _)
  · refine Prod.Lex.left _ _ (Finset.card_lt_card ?_)
    refine Finset.ssubset_iff_of_subset
      (Finset.sdiff_subset_sdiff (Finset.Subset.refl _) (Finset.subset_insert t s)) |>.2 ?_
    exact ⟨t, Finset.mem_sdiff.2 ⟨Finset.mem_univ t, hmem⟩,
      fun hc => (Finset.mem_sdiff.1 hc).2 (Finset.mem_insert_self t s)⟩
  · refine Prod.Lex.left _ _ (Nat.lt_of_le_of_lt
      (Finset.card_le_card (Finset.sdiff_subset_sdiff (Finset.Subset.refl _) r1.2)) ?_)
    refine Finset.card_lt_card ?_
    refine Finset.ssubset_iff_of_subset
      (Finset.sdiff_subset_sdiff (Finset.Subset.refl _) (Finset.subset_insert t s)) |>.2 ?_
    exact ⟨t, Finset.mem_sdiff.2 ⟨Finset.mem_univ t, hmem⟩,
      fun hc => (Finset.mem_sdiff.1 hc).2 (Finset.mem_insert_self t s)⟩

/-- `LuaModule._all_imports_recurse(s)`: add the module itself to the
visited set, then scan its import list. -/
def _all_imports_recurse {n : Nat} (g : LuaGraph n) (m : Fin n) (s : Finset (Fin n)) :
    Finset (Fin n) :=
  (closureGo g (g.imports m) (insert m s)).1

/-- `LuaModule._all_imports()`: the import closure of a module, computed by
depth-first traversal from an empty visited set.  Defined by well-founded
recursion, hence total: the traversal terminates on every finite import
graph, cycles and self-loops included. -/
def _all_imports {n : Nat} (g : LuaGraph n) (m : Fin n) : Finset (Fin n) :=
  _all_imports_recurse g m ∅

/-- `a` has an import edge to `b` (under some alias). -/
def importEdge {n : Nat} (g : LuaGraph n) (a b : Fin n) : Prop :=
  ∃ al, (b, al) ∈ g.imports a

/-- The internal script identifier assigned to the member with counter `k`
and module name `nm`: the Python format string `_LuaModule%s__%s`. -/
def internalId (k : Nat) (nm : String) : String :=
  "_LuaModule" ++ Nat.repr k ++ "__" ++ nm

/-- The identifier-assignment loop of `_compile_`: walk the closure in
iteration order, pairing each member with `internalId` of a strictly
increasing counter (`n += 1` in the source). -/
def assignIds {n : Nat} (g : LuaGraph n) : Nat → List (Fin n) → List (Fin n × String)
  | _, [] => []
  | k, m :: rest => (m, internalId k (g.name m)) :: assignIds g (k + 1) rest

/-- The iteration order over the closure set used by `_compile_`.  The
Python code iterates a hash set in an unspecified order; we fix the order
induced by the module indices, a legitimate enumeration of the same set. -/
def closureList {n : Nat} (g : LuaGraph n) (root : Fin n) : List (Fin n) :=
  (_all_imports g root).sort (· ≤ ·)

/-- The `module_map` built by `_compile_`: one `(module, identifier)` entry
per member of the import closure. -/
def module_map {n : Nat} (g : LuaGraph n) (root : Fin n) : List (Fin n × String) :=
  assignIds g 0 (closureList g root)

/-- Dictionary lookup `module_map[module]` (total on the closure, where the
entry always exists). -/
def lookupId {n : Nat} (mm : List (Fin n × String)) (m : Fin n) : String :=
  (mm.lookup m).getD ""

/-- The single-quote character, used by the Python `%r` formatting of
function names. -/
def pyQuote : Char := Char.ofNat 39

/-- Python `repr` of a function-name string (quoting only; names contain no
characters needing escapes). -/
def pyStrRepr (s : String) : String :=
  String.mk (pyQuote :: (s.data ++ [pyQuote]))

/-- `LuaModule._compile_module(module_map)`: one module declaration block —
a `do ... end` scope binding every import alias to its target's internal
identifier, then populating the module's own table with its function
literals.  (The `_compile_called` flag that this method also sets is
modelled on the state-transition side, in `_call_`.) -/
def _compile_module {n : Nat} (g : LuaGraph n) (m : Fin n)
    (mm : List (Fin n × String)) : String :=
  let import_names := (g.imports m).map Prod.snd
  let global_names := (g.imports m).map (fun p => lookupId mm p.1)
  let set_functions := String.intercalate "\n"
    ((g.functions m).map (fun p => g.name m ++ "[" ++ pyStrRepr p.1 ++ "] = " ++
      p.2.lua_funcdef))
  "\n        do\n            local " ++ String.intercalate ", " import_names ++
    " = " ++ String.intercalate ", " global_names ++
    "\n            " ++ set_functions ++ "\n        end\n        "

/-- The preamble of the assembled script: the `NOW` binding plus one local
declaration initializing every internal identifier to an empty table. -/
def preambleText {n : Nat} (g : LuaGraph n) (root : Fin n) : String :=
  "\n        local NOW = tonumber(ARGV[3])\n        local " ++
    String.intercalate ", " ((module_map g root).map Prod.snd) ++ " = " ++
    String.intercalate ", " (List.replicate (module_map g root).length "\x7b\x7d")

/-- The concatenation of all module declaration blocks, one per closure
member, in iteration order. -/
def setModulesText {n : Nat} (g : LuaGraph n) (root : Fin n) : String :=
  String.intercalate "\n"
    ((closureList g root).map (fun m => _compile_module g m (module_map g root)))

/-- The dispatch epilogue of the assembled script. -/
def epilogueText {n : Nat} (g : LuaGraph n) (root : Fin n) : String :=
  "\n        return cjson.encode(" ++ lookupId (module_map g root) root ++
    "[ARGV[1]](unpack(cjson.decode(ARGV[2]))) or nil)\n        "

/-- `LuaModule._compile_()`: assemble the full script — compute the import
closure, assign internal identifiers, emit the preamble of empty-table
declarations, every module block, and the dispatch epilogue. -/
def _compile_ {n : Nat} (g : LuaGraph n) (root : Fin n) : String :=
  let mm := module_map g root
  let module_names := String.intercalate ", " (mm.map Prod.snd)
  let blank_tables := String.intercalate ", " (List.replicate mm.length "\x7b\x7d")
  let set_modules := String.intercalate "\n"
    ((closureList g root).map (fun m => _compile_module g m mm))
  let own_name := lookupId mm root
  "\n        local NOW = tonumber(ARGV[3])\n        local " ++ module_names ++
    " = " ++ blank_tables ++ "\n        " ++ set_modules ++
    "\n        return cjson.encode(" ++ own_name ++
    "[ARGV[1]](unpack(cjson.decode(ARGV[2]))) or nil)\n        "

/-- Decimal value of a digit string; proof-side helper used to invert
`Nat.repr`. -/
def decVal (l : List Char) : Nat :=
  l.foldl (fun a c => 10 * a + (c.toNat - 48)) 0

/-- The mutable part of every module object: its `_imports_` list, its
`_compile_called` flag and its cached `_registered_script` handle (the
store's handle is content-addressed, so it is modelled by the registered
source text). -/
structure MState (n : Nat) where
  imports : Fin n → List (Fin n × String)
  compile_called : Fin n → Bool
  registered : Fin n → Option String

/-- Module state right after `__new__`: every module's import list holds
exactly the implicit self-import `(self, self._name_)`, no module has been
compiled, and no script handle is cached. -/
def initState {n : Nat} (g : LuaGraph n) : MState n :=
  { imports := fun m => [(m, g.name m)]
    compile_called := fun _ => false
    registered := fun _ => none }

/-- The graph as currently visible: static names and functions, and the
current import lists. -/
def stGraph {n : Nat} (g : LuaGraph n) (st : MState n) : LuaGraph n :=
  { g with imports := st.imports }

/-- One element of the argument of `_import_` after list normalization: a
bare module (imported under its own name) or a `(module, alias)` pair. -/
abbrev ImportItem (n : Nat) := Sum (Fin n) (Fin n × String)

/-- Normalization of one import item to a `(module, alias)` pair. -/
def resolveItem {n : Nat} (g : LuaGraph n) : ImportItem n → Fin n × String
  | Sum.inl m => (m, g.name m)
  | Sum.inr p => p

/-- `LuaModule._import_name_used(name)`. -/
def _import_name_used {n : Nat} (st : MState n) (who : Fin n) (a : String) : Bool :=
  (st.imports who).any (fun p => p.2 == a)

/-- Append one `(module, alias)` edge to `who`'s import list. -/
def appendImport {n : Nat} (st : MState n) (who : Fin n) (p : Fin n × String) : MState n :=
  { st with imports := fun x => if x = who then st.imports x ++ [p] else st.imports x }

/-- The loop body of `_import_`: process items left to right, appending each
resolved pair, and stop with an error at the first alias collision (earlier
appends are kept — the mutation is not rolled back). -/
def importLoop {n : Nat} (g : LuaGraph n) (who : Fin n) :
    MState n → List (ImportItem n) → MState n × Option String
  | st, [] => (st, none)
  | st, item :: rest =>
    let p := resolveItem g item
    if _import_name_used st who p.2 then
      (st, some ("LuaModule " ++ g.name who ++ " tried to re-use import name " ++ p.2))
    else importLoop g who (appendImport st who p) rest

/-- `LuaModule._import_(imports)` (list form): reject outright after first
compilation, otherwise run the append loop. -/
def _import_ {n : Nat} (g : LuaGraph n) (st : MState n) (who : Fin n)
    (items : List (ImportItem n)) : MState n × Option String :=
  if st.compile_called who then
    (st, some "Attempted to add imports to LuaModule after it has already been used")
  else importLoop g who st items

/-- An interaction with the external store: one script registration or one
script evaluation by handle.  (Pipelined and direct clients differ only in
how the evaluation's response is decoded; both submit the same commands, so
one event covers both.) -/
inductive StoreEvent where
  | register (script : String)
  | evalsha (handle : String) (fname : String) (nargs : Nat)
deriving DecidableEq

/-- Result of `_call_`: the new module state, the store interactions in
order, and the raised error, if any. -/
structure CallResult (n : Nat) where
  st : MState n
  events : List StoreEvent
  error : Option String

/-- `_compile_` sets `_compile_called` on every member of the closure (one
`_compile_module` call each). -/
def markCompiled {n : Nat} (st : MState n) (cl : Finset (Fin n)) : MState n :=
  { st with compile_called := fun m => if m ∈ cl then true else st.compile_called m }

/-- `LuaModule._call_(name, *args, redis=...)`: look up the function (a
missing name raises a key error), validate the positional argument count,
resolve the client (explicit argument, else the module default), lazily
compile and register the script when no handle is cached, then evaluate by
handle. -/
def _call_ {n : Nat} (g : LuaGraph n) (st : MState n) (who : Fin n) (fname : String)
    (args : List String) (redisArg : Option Nat) : CallResult n :=
  match (g.functions who).lookup fname with
  | none => ⟨st, [], some "KeyError"⟩
  | some func =>
    if func.arg_count_valid args.length = false then
      ⟨st, [], some ("Wrong number of args to LuaModule " ++ g.name who ++ "." ++ fname ++
        "; expected " ++ func.arg_count_range_text ++ ", got " ++ Nat.repr args.length)⟩
    else
      match redisArg.orElse (fun _ => g.redis who) with
      | none => ⟨st, [], some ("This LuaModule was created without a default Redis " ++
          "client, so you need to specify one in a kwarg: " ++ g.name who ++ "." ++
          fname ++ "(..., redis=redis)")⟩
      | some _client =>
        match st.registered who with
        | some h => ⟨st, [StoreEvent.evalsha h fname args.length], none⟩
        | none =>
          let text := _compile_ (stGraph g st) who
          let st1 := markCompiled st (_all_imports (stGraph g st) who)
          let st2 : MState n :=
            { st1 with registered := fun m => if m = who then some text else st1.registered m }
          ⟨st2, [StoreEvent.register text, StoreEvent.evalsha text fname args.length], none⟩

/-- One call request against a fixed root module. -/
structure CallSpec where
  fname : String
  args : List String
  redisArg : Option Nat

/-- Run a sequence of calls against one root module, accumulating the store
events; the Boolean records whether every call succeeded. -/
def runCalls {n : Nat} (g : LuaGraph n) (who : Fin n) :
    MState n → List CallSpec → MState n × List StoreEvent × Bool
  | st, [] => (st, [], true)
  | st, c :: rest =>
    let r := _call_ g st who c.fname c.args c.redisArg
    let out := runCalls g who r.st rest
    (out.1, r.events ++ out.2.1, r.error.isNone && out.2.2)

/-- Is this store event a script registration? -/
def isRegister : StoreEvent → Bool
  | StoreEvent.register _ => true
  | _ => false

/-- Number of script registrations among the events. -/
def countRegisters (evs : List StoreEvent) : Nat :=
  (evs.filter isRegister).length

/-- A module-level operation: an `_import_` or a `_call_`. -/
inductive MOp (n : Nat) where
  | imp (who : Fin n) (items : List (ImportItem n))
  | call (who : Fin n) (fname : String) (args : List String) (redisArg : Option Nat)

/-- Apply one operation to the state. -/
def applyOp {n : Nat} (g : LuaGraph n) (st : MState n) : MOp n → MState n
  | MOp.imp who items => (_import_ g st who items).1
  | MOp.call who f a r => (_call_ g st who f a r).st

/-- Apply a sequence of operations. -/
def applyOps {n : Nat} (g : LuaGraph n) (st : MState n) (ops : List (MOp n)) : MState n :=
  ops.foldl (applyOp g) st

/-- A sample function with one required parameter (used by witnesses). -/
def exF : LuaFunction :=
  { arg_names := ["x"], code := "return x" }

/-- A sample two-module graph (used by witnesses). -/
def exG : LuaGraph 2 :=
  { name := fun m => if m = 0 then "A" else "B"
    imports := fun _ => []
    functions := fun _ => [("f", exF)]
    redis := fun _ => some 0 }

/-- A sample already-compiled, already-registered state over `exG` (used by
witnesses). -/
def exRegState : MState 2 :=
  { imports := fun m => [(m, if m = 0 then "A" else "B")]
    compile_called := fun _ => true
    registered := fun _ => some "S" }

/-- Reachability over import edges (reflexive-transitive). -/
inductive Reaches {n : Nat} (g : LuaGraph n) : Fin n → Fin n → Prop
  | refl (a : Fin n) : Reaches g a a
  | tail {a b c : Fin n} : Reaches g a b → importEdge g b c → Reaches g a c

end RedisLuaModules

namespace RedisLuaModules

theorem closureGo_nil {n : Nat} (g : LuaGraph n) (s : Finset (Fin n)) :
    (closureGo g [] s).1 = s := by
  simp [closureGo]

theorem closureGo_cons_mem {n : Nat} (g : LuaGraph n) (t : Fin n) (al : String)
    (rest : List (Fin n × String)) (s : Finset (Fin n)) (h : t ∈ s) :
    (closureGo g ((t, al) :: rest) s).1 = (closureGo g rest s).1 := by
  rw [closureGo]
  simp [h]

theorem closureGo_cons_not_mem {n : Nat} (g : LuaGraph n) (t : Fin n) (al : String)
    (rest : List (Fin n × String)) (s : Finset (Fin n)) (h : t ∉ s) :
    (closureGo g ((t, al) :: rest) s).1 =
      (closureGo g rest (closureGo g (g.imports t) (insert t s)).1).1 := by
  rw [closureGo]
  simp [h]

theorem reaches_head {n : Nat} {g : LuaGraph n} {a b c : Fin n}
    (h : importEdge g a b) (r : Reaches g b c) : Reaches g a c := by
  induction r with
  | refl => exact Reaches.tail (Reaches.refl a) h
  | tail _ e ih => exact Reaches.tail ih e

/-- Every target listed in `l` ends up in the result of the scan. -/
theorem mem_closureGo {n : Nat} (g : LuaGraph n) :
    ∀ (l : List (Fin n × String)) (s : Finset (Fin n)) (t : Fin n) (al : String),
      (t, al) ∈ l → t ∈ (closureGo g l s).1 := by
  intro l
  induction l with
  | nil => intro s t al h; cases h
  | cons p rest ih =>
      obtain ⟨u, au⟩ := p
      intro s t al h
      by_cases hmem : u ∈ s
      · rw [closureGo_cons_mem g u au rest s hmem]
        rcases List.mem_cons.1 h with h1 | h2
        · obtain ⟨rfl, rfl⟩ := Prod.mk.injEq .. ▸ h1
          exact (closureGo g rest s).2 hmem
        · exact ih s t al h2
      · rw [closureGo_cons_not_mem g u au rest s hmem]
        rcases List.mem_cons.1 h with h1 | h2
        · obtain ⟨rfl, rfl⟩ := Prod.mk.injEq .. ▸ h1
          exact (closureGo g rest _).2
            ((closureGo g (g.imports t) (insert t s)).2 (Finset.mem_insert_self t s))
        · exact ih _ t al h2

/-- Soundness of the scan: everything in the result was already visited or
is reachable from one of the listed targets. -/
theorem closureGo_sound {n : Nat} (g : LuaGraph n) :
    ∀ (N : Nat) (l : List (Fin n × String)) (s : Finset (Fin n)),
      (Finset.univ \ s).card < N →
      ∀ x ∈ (closureGo g l s).1,
        x ∈ s ∨ ∃ t al, (t, al) ∈ l ∧ Reaches g t x := by
  intro N
  induction N with
  | zero => intro l s hs; omega
  | succ N ihN =>
      intro l
      induction l with
      | nil =>
          intro s _ x hx
          rw [closureGo_nil] at hx
          exact Or.inl hx
      | cons p rest ihl =>
          obtain ⟨t, al⟩ := p
          intro s hs x hx
          by_cases hmem : t ∈ s
          · rw [closureGo_cons_mem g t al rest s hmem] at hx
            rcases ihl s hs x hx with h | ⟨u, au, hu, hr⟩
            · exact Or.inl h
            · exact Or.inr ⟨u, au, List.mem_cons_of_mem _ hu, hr⟩
          · rw [closureGo_cons_not_mem g t al rest s hmem] at hx
            have hcard1 : (Finset.univ \ insert t s).card < N := by
              have hlt : (Finset.univ \ insert t s).card < (Finset.univ \ s).card := by
                refine Finset.card_lt_card ?_
                refine Finset.ssubset_iff_of_subset
                  (Finset.sdiff_subset_sdiff (Finset.Subset.refl _)
                    (Finset.subset_insert t s)) |>.2 ?_
                exact ⟨t, Finset.mem_sdiff.2 ⟨Finset.mem_univ t, hmem⟩,
                  fun hc => (Finset.mem_sdiff.1 hc).2 (Finset.mem_insert_self t s)⟩
              omega
            have hcard2 :
                (Finset.univ \ (closureGo g (g.imports t) (insert t s)).1).card < N := by
              have hle := Finset.card_le_card
                (Finset.sdiff_subset_sdiff (Finset.Subset.refl Finset.univ)
                  (closureGo g (g.imports t) (insert t s)).2)
              omega
            rcases ihN rest _ hcard2 x hx with h1 | ⟨u, au, hu, hr⟩
            · rcases ihN (g.imports t) (insert t s) hcard1 x h1 with h2 | ⟨u, au, hu, hr⟩
              · rcases Finset.mem_insert.1 h2 with rfl | h3
                · exact Or.inr ⟨x, al, List.mem_cons_self _ _, Reaches.refl x⟩
                · exact Or.inl h3
              · exact Or.inr ⟨t, al, List.mem_cons_self _ _,
                  reaches_head ⟨au, hu⟩ hr⟩
            · exact Or.inr ⟨u, au, List.mem_cons_of_mem _ hu, hr⟩

/-- Closedness of the scan: every member of the result is either an initial
visited node or has all of its import targets inside the result. -/
theorem closureGo_closed {n : Nat} (g : LuaGraph n) :
    ∀ (N : Nat) (l : List (Fin n × String)) (s : Finset (Fin n)),
      (Finset.univ \ s).card < N →
      ∀ x ∈ (closureGo g l s).1,
        x ∈ s ∨ ∀ y, importEdge g x y → y ∈ (closureGo g l s).1 := by
  intro N
  induction N with
  | zero => intro l s hs; omega
  | succ N ihN =>
      intro l
      induction l with
      | nil =>
          intro s _ x hx
          rw [closureGo_nil] at hx
          exact Or.inl hx
      | cons p rest ihl =>
          obtain ⟨t, al⟩ := p
          intro s hs x hx
          by_cases hmem : t ∈ s
          · rw [closureGo_cons_mem g t al rest s hmem] at hx ⊢
            exact ihl s hs x hx
          · rw [closureGo_cons_not_mem g t al rest s hmem] at hx ⊢
            have hcard1 : (Finset.univ \ insert t s).card < N := by
              have hlt : (Finset.univ \ insert t s).card < (Finset.univ \ s).card := by
                refine Finset.card_lt_card ?_
                refine Finset.ssubset_iff_of_subset
                  (Finset.sdiff_subset_sdiff (Finset.Subset.refl _)
                    (Finset.subset_insert t s)) |>.2 ?_
                exact ⟨t, Finset.mem_sdiff.2 ⟨Finset.mem_univ t, hmem⟩,
                  fun hc => (Finset.mem_sdiff.1 hc).2 (Finset.mem_insert_self t s)⟩
              omega
            have hcard2 :
                (Finset.univ \ (closureGo g (g.imports t) (insert t s)).1).card < N := by
              have hle := Finset.card_le_card
                (Finset.sdiff_subset_sdiff (Finset.Subset.refl Finset.univ)
                  (closureGo g (g.imports t) (insert t s)).2)
              omega
            rcases ihN rest _ hcard2 x hx with h1 | hcl
            · rcases ihN (g.imports t) (insert t s) hcard1 x h1 with h2 | hcl1
              · rcases Finset.mem_insert.1 h2 with rfl | h3
                · refine Or.inr ?_
                  rintro y ⟨ay, hy⟩
                  exact (closureGo g rest _).2 (mem_closureGo g (g.imports x) _ y ay hy)
                · exact Or.inl h3
              · refine Or.inr ?_
                intro y hy
                exact (closureGo g rest _).2 (hcl1 y hy)
            · exact Or.inr hcl

/-- The characterization of `_all_imports`: membership is exactly
reachability over import edges. -/
theorem mem_all_imports_iff {n : Nat} (g : LuaGraph n) (m x : Fin n) :
    x ∈ _all_imports g m ↔ Reaches g m x := by
  constructor
  · intro hx
    rcases closureGo_sound g ((Finset.univ \ insert m ∅).card + 1) (g.imports m)
        (insert m ∅) (Nat.lt_succ_self _) x hx with h | ⟨t, al, ht, hr⟩
    · rcases Finset.mem_insert.1 h with rfl | h2
      · exact Reaches.refl x
      · cases Finset.not_mem_empty x h2
    · exact reaches_head ⟨al, ht⟩ hr
  · intro hr
    induction hr with
    | refl =>
        exact (closureGo g (g.imports m) (insert m ∅)).2 (Finset.mem_insert_self m ∅)
    | tail hab e ih =>
        rcases closureGo_closed g ((Finset.univ \ insert m ∅).card + 1) (g.imports m)
            (insert m ∅) (Nat.lt_succ_self _) _ ih with h | hcl
        · rcases Finset.mem_insert.1 h with rfl | h2
          · obtain ⟨ay, hy⟩ := e
            exact mem_closureGo g _ _ _ ay hy
          · cases Finset.not_mem_empty _ h2
        · exact hcl _ e

/-- Claim C2: for every module in every finite import graph (cycles and
self-loops included), `_all_imports()` — a total function, defined by
well-founded recursion, so the traversal terminates — returns exactly the
set of modules reachable from that module via import edges, the module
itself included; membership is index (object) identity. -/
theorem claim_C2 {n : Nat} (g : LuaGraph n) (m : Fin n) :
    m ∈ _all_imports g m ∧ ∀ x, (x ∈ _all_imports g m ↔ Reaches g m x) :=
  ⟨(mem_all_imports_iff g m m).mpr (Reaches.refl m), fun x => mem_all_imports_iff g m x⟩

theorem digitChar_toNat_of_lt : ∀ d : Nat, d < 10 → (Nat.digitChar d).toNat = 48 + d := by
  decide

theorem digitChar_isDigit_of_lt : ∀ d : Nat, d < 10 → (Nat.digitChar d).isDigit = true := by
  decide

theorem toDigitsCore_append (b : Nat) :
    ∀ (f n : Nat) (ds : List Char),
      Nat.toDigitsCore b f n ds = Nat.toDigitsCore b f n [] ++ ds := by
  intro f
  induction f with
  | zero => intro n ds; simp [Nat.toDigitsCore]
  | succ f ih =>
      intro n ds
      simp only [Nat.toDigitsCore]
      by_cases h : n / b = 0
      · simp [h]
      · simp only [h, if_false]
        rw [ih (n / b) (Nat.digitChar (n % b) :: ds), ih (n / b) [Nat.digitChar (n % b)]]
        simp

theorem decVal_toDigitsCore : ∀ (f n : Nat), n < f →
    decVal (Nat.toDigitsCore 10 f n []) = n := by
  intro f
  induction f with
  | zero => intro n h; exact absurd h (Nat.not_lt_zero n)
  | succ f ih =>
      intro n hn
      simp only [Nat.toDigitsCore]
      by_cases h : n / 10 = 0
      · have h10 : n % 10 < 10 := Nat.mod_lt _ (by norm_num)
        simp only [h, if_true, decVal, List.foldl]
        rw [digitChar_toNat_of_lt _ h10]
        omega
      · simp only [h, if_false]
        rw [toDigitsCore_append]
        have hlt : n / 10 < f := by omega
        have h10 : n % 10 < 10 := Nat.mod_lt _ (by norm_num)
        simp only [decVal, List.foldl_append, List.foldl]
        have := ih (n / 10) hlt
        simp only [decVal] at this
        rw [this, digitChar_toNat_of_lt _ h10]
        omega

theorem nat_repr_data_inj {a b : Nat} (h : (Nat.repr a).data = (Nat.repr b).data) :
    a = b := by
  have ha := decVal_toDigitsCore (a + 1) a (Nat.lt_succ_self a)
  have hb := decVal_toDigitsCore (b + 1) b (Nat.lt_succ_self b)
  have hda : (Nat.repr a).data = Nat.toDigitsCore 10 (a + 1) a [] := rfl
  have hdb : (Nat.repr b).data = Nat.toDigitsCore 10 (b + 1) b [] := rfl
  rw [hda, hdb] at h
  rw [← ha, ← hb, h]

theorem toDigitsCore_all_digits :
    ∀ (f n : Nat) (ds : List Char), (∀ c ∈ ds, c.isDigit = true) →
      ∀ c ∈ Nat.toDigitsCore 10 f n ds, c.isDigit = true := by
  intro f
  induction f with
  | zero => intro n ds hds; simpa [Nat.toDigitsCore] using hds
  | succ f ih =>
      intro n ds hds
      simp only [Nat.toDigitsCore]
      by_cases h : n / 10 = 0
      · simp only [h, if_true]
        intro c hc
        rcases List.mem_cons.1 hc with rfl | hmem
        · exact digitChar_isDigit_of_lt _ (Nat.mod_lt _ (by norm_num))
        · exact hds c hmem
      · simp only [h, if_false]
        refine ih (n / 10) _ ?_
        intro c hc
        rcases List.mem_cons.1 hc with rfl | hmem
        · exact digitChar_isDigit_of_lt _ (Nat.mod_lt _ (by norm_num))
        · exact hds c hmem

theorem repr_all_digits (k : Nat) : ∀ c ∈ (Nat.repr k).data, c.isDigit = true := by
  have h : (Nat.repr k).data = Nat.toDigitsCore 10 (k + 1) k [] := rfl
  rw [h]
  exact toDigitsCore_all_digits (k + 1) k [] (by intro c hc; cases hc)

/-- A run of decimal digits followed by an underscore determines its own
extent: two such decompositions of the same character list agree. -/
theorem digit_run_sep :
    ∀ (l1 l2 r1 r2 : List Char),
      (∀ c ∈ l1, c.isDigit = true) → (∀ c ∈ l2, c.isDigit = true) →
      l1 ++ '_' :: r1 = l2 ++ '_' :: r2 → l1 = l2 ∧ r1 = r2 := by
  intro l1
  induction l1 with
  | nil =>
      intro l2 r1 r2 _ h2 heq
      cases l2 with
      | nil => simpa using heq
      | cons c l2t =>
          exfalso
          simp only [List.nil_append, List.cons_append, List.cons.injEq] at heq
          have := h2 c (List.mem_cons_self c l2t)
          rw [← heq.1] at this
          simp [Char.isDigit] at this
  | cons c l1t ih =>
      intro l2 r1 r2 h1 h2 heq
      cases l2 with
      | nil =>
          exfalso
          simp only [List.nil_append, List.cons_append, List.cons.injEq] at heq
          have := h1 c (List.mem_cons_self c l1t)
          rw [heq.1] at this
          simp [Char.isDigit] at this
      | cons c2 l2t =>
          simp only [List.cons_append, List.cons.injEq] at heq
          obtain ⟨rfl, heq2⟩ := heq
          obtain ⟨hl, hr⟩ := ih l2t r1 r2
            (fun x hx => h1 x (List.mem_cons_of_mem _ hx))
            (fun x hx => h2 x (List.mem_cons_of_mem _ hx)) heq2
          exact ⟨by rw [hl], hr⟩

/-- The generated internal identifiers are injective in the counter and in
the module name: the counter's decimal digits are delimited by the first
non-digit character. -/
theorem internalId_inj {k1 k2 : Nat} {n1 n2 : String}
    (h : internalId k1 n1 = internalId k2 n2) : k1 = k2 ∧ n1 = n2 := by
  have hd := congrArg String.data h
  simp only [internalId, String.data_append] at hd
  simp only [List.append_assoc, List.cons_append, List.nil_append,
    List.cons.injEq, true_and] at hd
  obtain ⟨hk, hn⟩ := digit_run_sep _ _ _ _ (repr_all_digits k1) (repr_all_digits k2) hd
  have hn2 : n1.data = n2.data := by injection hn
  refine ⟨nat_repr_data_inj hk, ?_⟩
  have e1 : n1 = String.mk n1.data := rfl
  have e2 : n2 = String.mk n2.data := rfl
  rw [e1, e2, hn2]

theorem assignIds_fst {n : Nat} (g : LuaGraph n) :
    ∀ (k : Nat) (l : List (Fin n)), (assignIds g k l).map Prod.fst = l := by
  intro k l
  induction l generalizing k with
  | nil => rfl
  | cons m rest ih => simp [assignIds, ih]

theorem assignIds_snd_shape {n : Nat} (g : LuaGraph n) :
    ∀ (k : Nat) (l : List (Fin n)) (x : String),
      x ∈ (assignIds g k l).map Prod.snd → ∃ j nm, k ≤ j ∧ x = internalId j nm := by
  intro k l
  induction l generalizing k with
  | nil => intro x hx; cases hx
  | cons m rest ih =>
      intro x hx
      rcases List.mem_cons.1 hx with rfl | hmem
      · exact ⟨k, g.name m, Nat.le_refl k, rfl⟩
      · obtain ⟨j, nm, hj, hx⟩ := ih (k + 1) x hmem
        exact ⟨j, nm, by omega, hx⟩

theorem assignIds_snd_nodup {n : Nat} (g : LuaGraph n) :
    ∀ (k : Nat) (l : List (Fin n)), ((assignIds g k l).map Prod.snd).Nodup := by
  intro k l
  induction l generalizing k with
  | nil => exact List.nodup_nil
  | cons m rest ih =>
      refine List.nodup_cons.2 ⟨?_, ih (k + 1)⟩
      intro hmem
      obtain ⟨j, nm, hj, hx⟩ := assignIds_snd_shape g (k + 1) rest _ hmem
      have := (internalId_inj hx).1
      omega

theorem assignIds_length {n : Nat} (g : LuaGraph n) (k : Nat) (l : List (Fin n)) :
    (assignIds g k l).length = l.length := by
  have h := congrArg List.length (assignIds_fst g k l)
  simpa using h

theorem closureList_nodup {n : Nat} (g : LuaGraph n) (root : Fin n) :
    (closureList g root).Nodup :=
  (_all_imports g root).sort_nodup (· ≤ ·)

theorem mem_closureList {n : Nat} (g : LuaGraph n) (root : Fin n) (x : Fin n) :
    x ∈ closureList g root ↔ x ∈ _all_imports g root :=
  Finset.mem_sort (· ≤ ·)

theorem closureList_length {n : Nat} (g : LuaGraph n) (root : Fin n) :
    (closureList g root).length = (_all_imports g root).card :=
  (_all_imports g root).length_sort (· ≤ ·)

/-- Claim C1: for every root module, `_compile_` assigns each member of
the import closure a distinct internal identifier (the `module_map` covers the
closure exactly once and its identifier strings are pairwise distinct),
emits exactly one empty-table declaration per closure member in a single
preamble, and exactly one module block per distinct member, regardless of
how many import edges reach a member — and the full output decomposes as
preamble, then all module blocks, then the dispatch epilogue, so the
preamble textually precedes every module block. -/
theorem claim_C1 {n : Nat} (g : LuaGraph n) (root : Fin n) :
    ((module_map g root).map Prod.fst = closureList g root) ∧
    (closureList g root).Nodup ∧
    (∀ x, x ∈ closureList g root ↔ x ∈ _all_imports g root) ∧
    ((module_map g root).map Prod.snd).Nodup ∧
    (module_map g root).length = (_all_imports g root).card ∧
    (List.replicate (module_map g root).length "\x7b\x7d").length
      = (_all_imports g root).card ∧
    ((closureList g root).map (fun m => _compile_module g m (module_map g root))).length
      = (_all_imports g root).card ∧
    _compile_ g root =
      preambleText g root ++ "\n        " ++ setModulesText g root ++
        epilogueText g root := by
  refine ⟨assignIds_fst g 0 _, closureList_nodup g root, mem_closureList g root,
    assignIds_snd_nodup g 0 _, ?_, ?_, ?_, ?_⟩
  · rw [module_map, assignIds_length, closureList_length]
  · rw [List.length_replicate, module_map, assignIds_length, closureList_length]
  · rw [List.length_map, closureList_length]
  · simp only [_compile_, preambleText, setModulesText, epilogueText, String.append_assoc]

/-- Claim C3: for every FunctionSpec whose `first_optional_index`, when
present, is at most `len(arg_names)`, `arg_count_range` returns
`(min, max)` with `min = first_optional_index` if set else the parameter
count, and `max = none` (unbounded) iff variadic else the parameter count;
and `arg_count_valid n` holds exactly when `min ≤ n` and (variadic or
`n ≤ max`). -/
theorem claim_C3 (f : LuaFunction)
    (h : ∀ k, f.first_optional_index = some k → k ≤ f.arg_names.length) :
    f.arg_count_range = (f.first_optional_index.getD f.arg_names.length,
      if f.varargs then none else some f.arg_names.length) ∧
    (∀ m : Nat, f.arg_count_valid m = true ↔
      (f.first_optional_index.getD f.arg_names.length ≤ m ∧
        (f.varargs = true ∨ m ≤ f.arg_names.length))) := by
  constructor
  · cases hfoi : f.first_optional_index with
    | none => simp [LuaFunction.arg_count_range, hfoi]
    | some k =>
        have hk := h k hfoi
        simp [LuaFunction.arg_count_range, hfoi, Nat.min_eq_left hk]
  · intro m
    cases hfoi : f.first_optional_index with
    | none =>
        cases hv : f.varargs <;>
          simp [LuaFunction.arg_count_valid, LuaFunction.arg_count_range, hfoi, hv] <;> omega
    | some k =>
        have hk := h k hfoi
        cases hv : f.varargs <;>
          simp [LuaFunction.arg_count_valid, LuaFunction.arg_count_range, hfoi, hv,
            Nat.min_eq_left hk] <;> omega

/-- Witness for C3 at a concrete FunctionSpec with two parameters, the second
optional. -/
theorem claim_C3_witness :
    (⟨["a", "b"], "return a", some 1, false⟩ : LuaFunction).arg_count_range = (1, some 2) ∧
    (⟨["a", "b"], "return a", some 1, false⟩ : LuaFunction).arg_count_valid 1 = true := by
  have h := claim_C3 (⟨["a", "b"], "return a", some 1, false⟩ : LuaFunction)
    (by intro k hk; cases hk; decide)
  exact ⟨h.1, ((h.2 1).mpr (by decide))⟩

/-- Claim C9: the constructor enforces no invariant on
`first_optional_index`, and `arg_count_range` clamps: `min` is
`min first_optional_index (len arg_names)` whenever the index is present, so
for every non-variadic FunctionSpec `min ≤ max` holds and the accepted
argument-count range is never empty (the exact parameter count is always
accepted). -/
theorem claim_C9 (f : LuaFunction) :
    (∀ k, f.first_optional_index = some k →
      f.arg_count_range.1 = min k f.arg_names.length) ∧
    (f.varargs = false →
      f.arg_count_range.1 ≤ f.arg_names.length ∧
      f.arg_count_range.2 = some f.arg_names.length) ∧
    f.arg_count_valid f.arg_names.length = true := by
  refine ⟨?_, ?_, ?_⟩
  · intro k hk
    simp [LuaFunction.arg_count_range, hk]
  · intro hv
    cases hfoi : f.first_optional_index <;>
      simp [LuaFunction.arg_count_range, hfoi, hv] <;> omega
  · cases hfoi : f.first_optional_index <;> cases hv : f.varargs <;>
      simp [LuaFunction.arg_count_valid, LuaFunction.arg_count_range, hfoi, hv] <;> omega

/-- Witness for C9 at a FunctionSpec violating the data-model invariant:
`first_optional_index = 5` with only two parameters. -/
theorem claim_C9_witness :
    (⟨["a", "b"], "return a", some 5, false⟩ : LuaFunction).arg_count_range.1 = min 5 2 ∧
    (⟨["a", "b"], "return a", some 5, false⟩ : LuaFunction).arg_count_range.2 = some 2 ∧
    (⟨["a", "b"], "return a", some 5, false⟩ : LuaFunction).arg_count_valid 2 = true := by
  have h := claim_C9 (⟨["a", "b"], "return a", some 5, false⟩ : LuaFunction)
  exact ⟨h.1 5 rfl, (h.2.1 rfl).2, h.2.2⟩

/-- Claim C4: with the module not yet compiled, `_import_` raises on any
pair whose alias is already used by an existing import entry (the implicit
self-alias included, since it sits in the imports list from construction),
leaving the state unchanged for a single-item call; and importing the same
target twice under two distinct unused aliases succeeds, appending both
edges. -/
theorem claim_C4 {n : Nat} (g : LuaGraph n) (st : MState n) (who : Fin n)
    (hc : st.compile_called who = false) :
    (∀ item : ImportItem n, _import_name_used st who (resolveItem g item).2 = true →
      _import_ g st who [item] =
        (st, some ("LuaModule " ++ g.name who ++ " tried to re-use import name " ++
          (resolveItem g item).2))) ∧
    (∀ (tgt : Fin n) (a1 a2 : String), a1 ≠ a2 →
      _import_name_used st who a1 = false → _import_name_used st who a2 = false →
      (_import_ g st who [Sum.inr (tgt, a1), Sum.inr (tgt, a2)]).2 = none ∧
      (_import_ g st who [Sum.inr (tgt, a1), Sum.inr (tgt, a2)]).1.imports who =
        st.imports who ++ [(tgt, a1), (tgt, a2)]) := by
  constructor
  · intro item h
    simp [_import_, hc, importLoop, h]
  · intro tgt a1 a2 hne h1 h2
    have h2b : (st.imports who).any (fun p => p.2 == a2) = false := h2
    have hne2 : (a1 == a2) = false := beq_eq_false_iff_ne.mpr hne
    have hstep : _import_name_used (appendImport st who (tgt, a1)) who a2 = false := by
      simp [_import_name_used, appendImport, List.any_append, h2b, hne2]
    have e : _import_ g st who [Sum.inr (tgt, a1), Sum.inr (tgt, a2)] =
        (appendImport (appendImport st who (tgt, a1)) who (tgt, a2), none) := by
      simp [_import_, hc, importLoop, resolveItem, h1, hstep]
    rw [e]
    exact ⟨rfl, by simp [appendImport]⟩

/-- Witness for C4 over the sample graph in its freshly constructed state:
re-using the implicit self-alias `A` fails, while importing module `1`
twice under fresh aliases `B1`, `B2` appends both edges. -/
theorem claim_C4_witness :
    _import_ exG (initState exG) 0 [Sum.inr (1, "A")] =
      (initState exG, some "LuaModule A tried to re-use import name A") ∧
    (_import_ exG (initState exG) 0 [Sum.inr (1, "B1"), Sum.inr (1, "B2")]).2 = none ∧
    (_import_ exG (initState exG) 0 [Sum.inr (1, "B1"), Sum.inr (1, "B2")]).1.imports 0 =
      [(0, "A"), (1, "B1"), (1, "B2")] := by
  have h := claim_C4 exG (initState exG) 0 rfl
  refine ⟨h.1 (Sum.inr (1, "A")) (by decide), (h.2 1 "B1" "B2" (by decide) (by decide)
    (by decide)).1, ?_⟩
  have h2 := (h.2 1 "B1" "B2" (by decide) (by decide) (by decide)).2
  rw [h2]
  rfl

/-- Claim C7: when the positional-argument count is invalid for the looked
up function, `_call_` returns the argument-count error — whose message
names the module, the function, the expected-range text and the actual
count — with no store events and the state unchanged, for every value of
the client argument (so before client resolution, registration, or any
store interaction). -/
theorem claim_C7 {n : Nat} (g : LuaGraph n) (st : MState n) (who : Fin n)
    (fname : String) (func : LuaFunction) (args : List String) (redisArg : Option Nat)
    (hlk : (g.functions who).lookup fname = some func)
    (hbad : func.arg_count_valid args.length = false) :
    _call_ g st who fname args redisArg =
      ⟨st, [], some ("Wrong number of args to LuaModule " ++ g.name who ++ "." ++ fname ++
        "; expected " ++ func.arg_count_range_text ++ ", got " ++
        Nat.repr args.length)⟩ := by
  simp [_call_, hlk, hbad]

/-- Witness for C7: calling the one-parameter sample function with zero
arguments fails with the formatted arity error, touching nothing. -/
theorem claim_C7_witness :
    _call_ exG (initState exG) 0 "f" [] none =
      ⟨initState exG, [],
        some "Wrong number of args to LuaModule A.f; expected exactly 1, got 0"⟩ :=
  claim_C7 exG (initState exG) 0 "f" exF [] none rfl rfl

/-- Claim C8: once a module's `_compile_called` flag is set (as `_compile_`
does for every closure member when the script is assembled and registered),
every `_import_` call on it raises and leaves the state untouched, so the
module remains usable for calls exactly as before. -/
theorem claim_C8 {n : Nat} (g : LuaGraph n) (st : MState n) (who : Fin n)
    (items : List (ImportItem n)) (fname : String) (args : List String)
    (redisArg : Option Nat) (hc : st.compile_called who = true) :
    _import_ g st who items =
      (st, some "Attempted to add imports to LuaModule after it has already been used") ∧
    _call_ g (_import_ g st who items).1 who fname args redisArg =
      _call_ g st who fname args redisArg := by
  have h1 : _import_ g st who items =
      (st, some "Attempted to add imports to LuaModule after it has already been used") := by
    simp [_import_, hc]
  exact ⟨h1, by rw [h1]⟩

/-- Witness for C8 on the registered sample state. -/
theorem claim_C8_witness :
    _import_ exG exRegState 0 [Sum.inl 1] =
      (exRegState, some "Attempted to add imports to LuaModule after it has already been used") ∧
    _call_ exG (_import_ exG exRegState 0 [Sum.inl 1]).1 0 "f" ["x"] none =
      _call_ exG exRegState 0 "f" ["x"] none :=
  claim_C8 exG exRegState 0 [Sum.inl 1] "f" ["x"] none rfl

/-- The import loop preserves the head of every module's import list. -/
theorem importLoop_head_preserved {n : Nat} (g : LuaGraph n) (who : Fin n) :
    ∀ (items : List (ImportItem n)) (st : MState n) (m : Fin n) (x : Fin n × String),
      (st.imports m).head? = some x →
      ((importLoop g who st items).1.imports m).head? = some x := by
  intro items
  induction items with
  | nil => intro st m x h; exact h
  | cons item rest ih =>
      intro st m x h
      rw [importLoop]
      by_cases hused : _import_name_used st who (resolveItem g item).2 = true
      · simp only [hused, if_true]
        exact h
      · simp only [eq_false_of_ne_true hused, Bool.false_eq_true, if_false]
        refine ih _ m x ?_
        simp only [appendImport]
        by_cases hm : m = who
        · subst hm
          simp only [if_pos rfl]
          cases hl : st.imports m with
          | nil => rw [hl] at h; cases h
          | cons y ys =>
              rw [hl] at h
              simpa using h
        · simp only [if_neg hm]
          exact h

/-- `_call_` never modifies any import list. -/
theorem call_imports_eq {n : Nat} (g : LuaGraph n) (st : MState n) (who : Fin n)
    (fname : String) (args : List String) (redisArg : Option Nat) :
    (_call_ g st who fname args redisArg).st.imports = st.imports := by
  unfold _call_
  cases hlk : (g.functions who).lookup fname with
  | none => rfl
  | some func =>
      dsimp only
      by_cases hv : func.arg_count_valid args.length = false
      · rw [if_pos hv]
      · rw [if_neg hv]
        cases hr : redisArg.orElse (fun _ => g.redis who) with
        | none => rfl
        | some c =>
            dsimp only
            cases hreg : st.registered who with
            | some h => rfl
            | none => rfl

/-- Head preservation lifted to arbitrary operation sequences. -/
theorem applyOps_head_preserved {n : Nat} (g : LuaGraph n) :
    ∀ (ops : List (MOp n)) (st : MState n),
      (∀ m, (st.imports m).head? = some (m, g.name m)) →
      ∀ m, ((applyOps g st ops).imports m).head? = some (m, g.name m) := by
  intro ops
  induction ops with
  | nil => intro st h m; exact h m
  | cons op rest ih =>
      intro st h m
      have hstep : ∀ m, ((applyOp g st op).imports m).head? = some (m, g.name m) := by
        intro m2
        cases op with
        | imp who items =>
            simp only [applyOp, _import_]
            by_cases hc : st.compile_called who = true
            · rw [if_pos hc]
              exact h m2
            · rw [if_neg hc]
              exact importLoop_head_preserved g who items st m2 _ (h m2)
        | call who f a r =>
            simp only [applyOp]
            rw [call_imports_eq]
            exact h m2
      exact ih (applyOp g st op) hstep m

/-- Claim C5: starting from construction (where the imports list is exactly
the implicit self-import), after every sequence of `_import_` and `_call_`
operations, the first entry of every module's imports list is still
`(the module itself, its own name)`: imports are only ever appended, and
calls never touch the list. -/
theorem claim_C5 {n : Nat} (g : LuaGraph n) (ops : List (MOp n)) (m : Fin n) :
    ((applyOps g (initState g) ops).imports m).head? = some (m, g.name m) := by
  refine applyOps_head_preserved g ops (initState g) ?_ m
  intro m2
  rfl

/-- Processing a list of items whose prefix succeeds first runs the prefix,
then continues from the reached state. -/
theorem importLoop_append_split {n : Nat} (g : LuaGraph n) (who : Fin n) :
    ∀ (pre post : List (ImportItem n)) (st : MState n),
      (importLoop g who st pre).2 = none →
      importLoop g who st (pre ++ post) = importLoop g who (importLoop g who st pre).1 post := by
  intro pre
  induction pre with
  | nil => intro post st _; rfl
  | cons item rest ih =>
      intro post st hok
      rw [List.cons_append, importLoop]
      by_cases hused : _import_name_used st who (resolveItem g item).2 = true
      · exfalso
        rw [importLoop] at hok
        simp only [hused, if_true] at hok
        cases hok
      · simp only [eq_false_of_ne_true hused, Bool.false_eq_true, if_false]
        rw [importLoop] at hok ⊢
        simp only [eq_false_of_ne_true hused, Bool.false_eq_true, if_false] at hok ⊢
        exact ih post _ hok

/-- A fully successful import loop appends exactly the resolved pairs, in
order, to the target module's list. -/
theorem importLoop_ok_imports {n : Nat} (g : LuaGraph n) (who : Fin n) :
    ∀ (items : List (ImportItem n)) (st : MState n),
      (importLoop g who st items).2 = none →
      (importLoop g who st items).1.imports who =
        st.imports who ++ items.map (resolveItem g) := by
  intro items
  induction items with
  | nil => intro st _; simp [importLoop]
  | cons item rest ih =>
      intro st hok
      rw [importLoop] at hok ⊢
      by_cases hused : _import_name_used st who (resolveItem g item).2 = true
      · simp only [hused, if_true] at hok
        cases hok
      · simp only [eq_false_of_ne_true hused, Bool.false_eq_true, if_false] at hok ⊢
        rw [ih _ hok]
        simp [appendImport]

/-- Claim C10: `_import_` is not atomic on failure — when a duplicate alias
is hit partway through the item list, every earlier pair has already been
appended to the module's imports list and remains there after the error. -/
theorem claim_C10 {n : Nat} (g : LuaGraph n) (st : MState n) (who : Fin n)
    (pre : List (ImportItem n)) (bad : ImportItem n) (rest : List (ImportItem n))
    (hc : st.compile_called who = false)
    (hok : (importLoop g who st pre).2 = none)
    (hbad : _import_name_used (importLoop g who st pre).1 who (resolveItem g bad).2 = true) :
    (_import_ g st who (pre ++ bad :: rest)).2 =
      some ("LuaModule " ++ g.name who ++ " tried to re-use import name " ++
        (resolveItem g bad).2) ∧
    (_import_ g st who (pre ++ bad :: rest)).1.imports who =
      st.imports who ++ pre.map (resolveItem g) := by
  have h0 : _import_ g st who (pre ++ bad :: rest) =
      importLoop g who st (pre ++ bad :: rest) := by
    rw [_import_, if_neg]
    rw [hc]
    exact Bool.false_ne_true
  rw [h0, importLoop_append_split g who pre (bad :: rest) st hok, importLoop]
  simp only [hbad, if_true]
  exact ⟨trivial, importLoop_ok_imports g who pre st hok⟩

/-- Witness for C10: importing `[B under B1, B under B1 again, B bare]`
into the fresh sample module fails on the middle item but keeps the first
appended edge. -/
theorem claim_C10_witness :
    (_import_ exG (initState exG) 0
        [Sum.inr (1, "B1"), Sum.inr (1, "B1"), Sum.inl 1]).2 =
      some "LuaModule A tried to re-use import name B1" ∧
    (_import_ exG (initState exG) 0
        [Sum.inr (1, "B1"), Sum.inr (1, "B1"), Sum.inl 1]).1.imports 0 =
      [(0, "A"), (1, "B1")] := by
  have h := claim_C10 exG (initState exG) 0 [Sum.inr (1, "B1")] (Sum.inr (1, "B1"))
    [Sum.inl 1] rfl (by decide) (by decide)
  exact ⟨h.1, h.2⟩

theorem countRegisters_append (a b : List StoreEvent) :
    countRegisters (a ++ b) = countRegisters a + countRegisters b := by
  simp [countRegisters, List.filter_append]

theorem countRegisters_map_evalsha (h : String) (specs : List CallSpec) :
    countRegisters (specs.map fun c => StoreEvent.evalsha h c.fname c.args.length) = 0 := by
  induction specs with
  | nil => rfl
  | cons c rest ih => simpa [countRegisters, isRegister] using ih

/-- A call on a module with a cached handle keeps the handle, performs no
registration, and (on success) submits exactly one evaluation under the
cached handle. -/
theorem call_cached {n : Nat} (g : LuaGraph n) (st : MState n) (who : Fin n)
    (fname : String) (args : List String) (redisArg : Option Nat) (h : String)
    (hreg : st.registered who = some h) :
    (_call_ g st who fname args redisArg).st.registered who = some h ∧
    countRegisters (_call_ g st who fname args redisArg).events = 0 ∧
    ((_call_ g st who fname args redisArg).error = none →
      (_call_ g st who fname args redisArg).events =
        [StoreEvent.evalsha h fname args.length]) := by
  unfold _call_
  cases hlk : (g.functions who).lookup fname with
  | none => exact ⟨hreg, rfl, fun hcontra => by cases hcontra⟩
  | some func =>
      dsimp only
      by_cases hv : func.arg_count_valid args.length = false
      · rw [if_pos hv]
        exact ⟨hreg, rfl, fun hcontra => by cases hcontra⟩
      · rw [if_neg hv]
        cases hr : redisArg.orElse (fun _ => g.redis who) with
        | none => exact ⟨hreg, rfl, fun hcontra => by cases hcontra⟩
        | some c =>
            dsimp only
            rw [hreg]
            exact ⟨hreg, rfl, fun _ => rfl⟩

/-- A successful call on a module with no cached handle performs exactly one
registration and caches the compiled script as the handle. -/
theorem call_fresh {n : Nat} (g : LuaGraph n) (st : MState n) (who : Fin n)
    (fname : String) (args : List String) (redisArg : Option Nat)
    (hreg : st.registered who = none)
    (hok : (_call_ g st who fname args redisArg).error = none) :
    countRegisters (_call_ g st who fname args redisArg).events = 1 ∧
    (_call_ g st who fname args redisArg).st.registered who =
      some (_compile_ (stGraph g st) who) := by
  unfold _call_ at hok ⊢
  cases hlk : (g.functions who).lookup fname with
  | none => rw [hlk] at hok; cases hok
  | some func =>
      rw [hlk] at hok
      dsimp only at hok ⊢
      by_cases hv : func.arg_count_valid args.length = false
      · rw [if_pos hv] at hok; cases hok
      · rw [if_neg hv] at hok ⊢
        cases hr : redisArg.orElse (fun _ => g.redis who) with
        | none => rw [hr] at hok; cases hok
        | some c =>
            dsimp only
            rw [hreg]
            refine ⟨rfl, ?_⟩
            simp [markCompiled]

/-- Over a fully successful sequence of calls against a module whose handle
is already cached, no registration happens, the handle is unchanged, and
the events are exactly one evaluation per call under that handle. -/
theorem runCalls_cached {n : Nat} (g : LuaGraph n) (who : Fin n) :
    ∀ (specs : List CallSpec) (st : MState n) (h : String),
      st.registered who = some h →
      (runCalls g who st specs).2.2 = true →
      (runCalls g who st specs).2.1 =
        specs.map (fun c => StoreEvent.evalsha h c.fname c.args.length) ∧
      (runCalls g who st specs).1.registered who = some h := by
  intro specs
  induction specs with
  | nil => intro st h hreg _; exact ⟨rfl, hreg⟩
  | cons c rest ih =>
      intro st h hreg hok
      rw [runCalls] at hok ⊢
      simp only [Bool.and_eq_true] at hok
      obtain ⟨he, hrest⟩ := hok
      have herr : (_call_ g st who c.fname c.args c.redisArg).error = none :=
        Option.isNone_iff_eq_none.mp he
      obtain ⟨hA1, _, hA3⟩ := call_cached g st who c.fname c.args c.redisArg h hreg
      obtain ⟨ih1, ih2⟩ := ih _ h hA1 hrest
      refine ⟨?_, ih2⟩
      rw [hA3 herr, ih1]
      rfl

/-- Over any fully successful sequence of calls, at most one registration
happens, and exactly one when the module starts unregistered and the
sequence is nonempty. -/
theorem runCalls_counts {n : Nat} (g : LuaGraph n) (who : Fin n) :
    ∀ (specs : List CallSpec) (st : MState n),
      (runCalls g who st specs).2.2 = true →
      countRegisters (runCalls g who st specs).2.1 ≤ 1 ∧
      (st.registered who = none → specs ≠ [] →
        countRegisters (runCalls g who st specs).2.1 = 1) := by
  intro specs
  induction specs with
  | nil =>
      intro st _
      exact ⟨Nat.zero_le 1, fun _ hne => absurd rfl hne⟩
  | cons c rest ih =>
      intro st hok
      rw [runCalls] at hok ⊢
      simp only [Bool.and_eq_true] at hok
      obtain ⟨he, hrest⟩ := hok
      have herr : (_call_ g st who c.fname c.args c.redisArg).error = none :=
        Option.isNone_iff_eq_none.mp he
      cases hreg : st.registered who with
      | some h =>
          obtain ⟨hA1, hA2, _⟩ := call_cached g st who c.fname c.args c.redisArg h hreg
          obtain ⟨ih1, _⟩ := runCalls_cached g who rest _ h hA1 hrest
          have hz : countRegisters (runCalls g who
              (_call_ g st who c.fname c.args c.redisArg).st rest).2.1 = 0 := by
            rw [ih1, countRegisters_map_evalsha]
          constructor
          · rw [countRegisters_append, hA2, hz]
            omega
          · intro hnone _
            cases hnone
      | none =>
          obtain ⟨hc1, hc2⟩ := call_fresh g st who c.fname c.args c.redisArg hreg herr
          obtain ⟨ih1, _⟩ := runCalls_cached g who rest _ _ hc2 hrest
          have hz : countRegisters (runCalls g who
              (_call_ g st who c.fname c.args c.redisArg).st rest).2.1 = 0 := by
            rw [ih1, countRegisters_map_evalsha]
          have htot : countRegisters
              ((_call_ g st who c.fname c.args c.redisArg).events ++
                (runCalls g who (_call_ g st who c.fname c.args c.redisArg).st rest).2.1) = 1 := by
            rw [countRegisters_append, hc1, hz]
          exact ⟨by rw [htot], fun _ _ => htot⟩

/-- Claim C6: across any sequence of successful calls against one module,
the store's script registration happens at most once — exactly once when
the module starts unregistered (on the first call), and never when a handle
is already cached, in which case every call reuses the cached handle for
its evaluation and the handle survives unchanged. -/
theorem claim_C6 {n : Nat} (g : LuaGraph n) (who : Fin n) (st : MState n)
    (specs : List CallSpec) (hok : (runCalls g who st specs).2.2 = true) :
    countRegisters (runCalls g who st specs).2.1 ≤ 1 ∧
    (st.registered who = none → specs ≠ [] →
      countRegisters (runCalls g who st specs).2.1 = 1) ∧
    (∀ h, st.registered who = some h →
      (runCalls g who st specs).2.1 =
        specs.map (fun c => StoreEvent.evalsha h c.fname c.args.length) ∧
      (runCalls g who st specs).1.registered who = some h) :=
  ⟨(runCalls_counts g who specs st hok).1, (runCalls_counts g who specs st hok).2,
    fun h hreg => runCalls_cached g who specs st h hreg hok⟩

/-- Witness for C6: two successful calls on the fresh sample module trigger
exactly one registration. -/
theorem claim_C6_witness :
    countRegisters (runCalls exG 0 (initState exG)
      [⟨"f", ["x"], none⟩, ⟨"f", ["y"], none⟩]).2.1 = 1 :=
  (claim_C6 exG 0 (initState exG) [⟨"f", ["x"], none⟩, ⟨"f", ["y"], none⟩]
    rfl).2.1 rfl (List.cons_ne_nil _ _)

end RedisLuaModules
